import Mathlib

/-!
Shallow embedding of the `re_modeling` text-normalization and
phrase-matching engine (`src/text_utils.py`, `src/address_utils.py`,
`src/dataframe_utils.py`), together with proofs settling the claims
about it.

Strings are modelled as `List Char`.  The Unicode operations performed by
the Python library (`str.lower`, `unicodedata.normalize("NFKD", ·)`
followed by `encode("ASCII","ignore")`) are modelled character-wise via
explicit tables for the character repertoire exercised in this
development; every table entry was checked against the actual values of
`unicodedata` (NFKD decompositions and simple lowercase mappings).
-/

/-- Strings are modelled as lists of characters. -/
abbrev Str := List Char

/-- Coerce a Lean string literal to the model's string type. -/
def strL (s : String) : Str := s.toList

/-- `str.lower()` modelled character-wise.  ASCII characters are handled
by `Char.toLower`; the non-ASCII characters of the modelled repertoire
are listed explicitly (all of them map per Unicode simple lowercasing;
caseless symbols such as `°`, `º`, `´` and `㎅` are fixed points). -/
def pyLower (c : Char) : Char :=
  match c with
  | 'Á' => 'á' | 'É' => 'é' | 'Í' => 'í' | 'Ó' => 'ó' | 'Ú' => 'ú'
  | 'À' => 'à' | 'Ü' => 'ü' | 'Ñ' => 'ñ'
  | _ => c.toLower

/-- `str.upper()` modelled character-wise (used by the dataset-level
extractor when emitting labels). -/
def pyUpper (c : Char) : Char :=
  match c with
  | 'á' => 'Á' | 'é' => 'É' | 'í' => 'Í' | 'ó' => 'Ó' | 'ú' => 'Ú'
  | 'à' => 'À' | 'ü' => 'Ü' | 'ñ' => 'Ñ'
  | _ => c.toUpper

/-- `unicodedata.normalize("NFKD", ·)` followed by
`encode("ASCII","ignore")`, modelled per character.  ASCII characters
pass through unchanged; accented Latin letters decompose to their base
letter; `º` compatibility-decomposes to `o`, `´` to a space (its NFKD
form is space + combining acute), `㎅` to `KB`; `°` and other non-ASCII
characters without an ASCII-producing decomposition are dropped. -/
def nfkdAscii (c : Char) : Str :=
  match c with
  | 'á' => ['a'] | 'é' => ['e'] | 'í' => ['i'] | 'ó' => ['o'] | 'ú' => ['u']
  | 'à' => ['a'] | 'ü' => ['u'] | 'ñ' => ['n']
  | 'Á' => ['A'] | 'É' => ['E'] | 'Í' => ['I'] | 'Ó' => ['O'] | 'Ú' => ['U']
  | 'À' => ['A'] | 'Ü' => ['U'] | 'Ñ' => ['N']
  | 'º' => ['o'] | 'ª' => ['a'] | '´' => [' '] | '㎅' => ['K', 'B']
  | _ => if c.toNat < 128 then [c] else []

/-- The default `protected_chars` argument of `remove_accents`. -/
def defaultProtected : List Char := ['ñ', 'ü', '°', 'º']

/-- `text_utils.remove_accents` (src/text_utils.py lines 25-43):
lowercase, substitute each protected character with a reserved
placeholder, NFKD-decompose and strip non-ASCII, restore placeholders.
Modelled character-wise: protected characters pass through the fold
unchanged, every other character goes through `nfkdAscii`.  This is
faithful because the placeholders (`PLACEHOLDER_i`) contain uppercase
letters and therefore cannot occur in the lowercased input, so the
placeholder round-trip is exactly "protected characters are exempt from
the fold". -/
def remove_accents (input_str : Str)
    (protected_chars : List Char := defaultProtected) : Str :=
  (input_str.map pyLower).flatMap
    (fun c => if c ∈ protected_chars then [c] else nfkdAscii c)

/-- The per-character fold applied by `remove_accents` after
lowercasing, with the default protected set. -/
def foldChar (c : Char) : Str :=
  if c ∈ defaultProtected then [c] else nfkdAscii c

theorem remove_accents_eq_flatMap (s : Str) :
    remove_accents s = s.flatMap (fun c => foldChar (pyLower c)) := by
  simp [remove_accents, foldChar, List.flatMap_def, List.map_map]
  rfl

/-- A character is fold-stable when every character its fold produces is
a fixed point of both `pyLower` and `foldChar`.  All ASCII characters,
accented Latin letters and the protected characters are fold-stable;
compatibility characters such as `㎅` (which folds to uppercase `KB`)
are not. -/
def stableChar (c : Char) : Bool :=
  (foldChar (pyLower c)).all (fun d => pyLower d = d && foldChar d = [d])

theorem flatMap_stable_id (l : Str)
    (h : ∀ d ∈ l, pyLower d = d ∧ foldChar d = [d]) :
    l.flatMap (fun c => foldChar (pyLower c)) = l := by
  induction l with
  | nil => rfl
  | cons c cs ih =>
      have hc := h c (List.mem_cons_self c cs)
      have ihs := ih (fun d hd => h d (List.mem_cons_of_mem c hd))
      simp [List.flatMap_cons, hc.1, hc.2, ihs]

/-- Scratch check of the model on the spec's concrete example. -/
example :
    remove_accents (strL "ÁÉÍÓÚ üé ñü Pº p°") = strL "aeiou üe ñü pº p°" := by
  decide

/-- C5 (amended): diacritic folding is idempotent on every string all of
whose characters are fold-stable — this covers all ASCII text, accented
Latin letters and the protected characters.  (The unrestricted claim
fails: see the counterexample `C5_fold_not_idempotent`.) -/
theorem C5_fold_idempotent_on_stable (s : Str)
    (h : ∀ c ∈ s, stableChar c = true) :
    remove_accents (remove_accents s) = remove_accents s := by
  rw [remove_accents_eq_flatMap s, remove_accents_eq_flatMap]
  apply flatMap_stable_id
  intro d hd
  rw [List.mem_flatMap] at hd
  obtain ⟨c, hc, hdc⟩ := hd
  have := h c hc
  unfold stableChar at this
  rw [List.all_eq_true] at this
  have hdd := this d hdc
  rw [Bool.and_eq_true, decide_eq_true_eq, decide_eq_true_eq] at hdd
  exact hdd

/-- Witness for C5's amended theorem at the spec's own concrete
example string. -/
theorem C5_fold_idempotent_witness :
    remove_accents (remove_accents (strL "ÁÉÍÓÚ üé ñü Pº p°"))
      = remove_accents (strL "ÁÉÍÓÚ üé ñü Pº p°") :=
  C5_fold_idempotent_on_stable (strL "ÁÉÍÓÚ üé ñü Pº p°") (by decide)

/-- C5 counterexample: `remove_accents` is not idempotent on every
string.  The compatibility character `㎅` NFKD-decomposes to the
uppercase ASCII `KB`, which a second application lowercases to `kb`. -/
theorem C5_fold_not_idempotent :
    remove_accents (remove_accents (strL "㎅")) ≠ remove_accents (strL "㎅")
      ∧ remove_accents (strL "㎅") = strL "KB"
      ∧ remove_accents (remove_accents (strL "㎅")) = strL "kb" := by
  refine ⟨by decide, by decide, by decide⟩

/-- The set of ASCII letters, as used in claim C6. -/
def isAsciiLetter (c : Char) : Bool :=
  (97 ≤ c.toNat && c.toNat ≤ 122) || (65 ≤ c.toNat && c.toNat ≤ 90)

/-- A decidable property checked on all 128 ASCII characters transfers
to every character with code point below 128. -/
theorem ascii_check (P : Char → Prop) [DecidablePred P]
    (hall : ∀ n : Fin 128, P (Char.ofNat n.val))
    (c : Char) (hc : c.toNat < 128) : P c := by
  have h := hall ⟨c.toNat, hc⟩
  rwa [Char.ofNat_toNat] at h

theorem isAsciiLetter_lt (c : Char) (h : isAsciiLetter c = true) :
    c.toNat < 128 := by
  rcases (Bool.or_eq_true _ _).mp h with h' | h' <;>
    rcases (Bool.and_eq_true _ _).mp h' with ⟨h1, h2⟩ <;>
    simp only [decide_eq_true_eq] at h1 h2 <;> omega

/-- C6: on strings made only of protected characters and ASCII letters,
`remove_accents` keeps every protected character unchanged and
lowercases every other character; and the two concrete evaluations of
the claim hold. -/
theorem C6_protected_preservation :
    (∀ s : Str, (∀ c ∈ s, c ∈ defaultProtected ∨ isAsciiLetter c = true) →
        remove_accents s
          = s.map (fun c => if c ∈ defaultProtected then c else c.toLower))
    ∧ remove_accents (strL "ÁÉÍÓÚ üé ñü Pº p°") = strL "aeiou üe ñü pº p°"
    ∧ remove_accents (strL "") = strL "" := by
  refine ⟨?_, by decide, by decide⟩
  intro s hs
  induction s with
  | nil => rfl
  | cons c cs ih =>
      have hc := hs c (List.mem_cons_self c cs)
      have ihs := ih (fun d hd => hs d (List.mem_cons_of_mem c hd))
      rw [remove_accents_eq_flatMap] at ihs ⊢
      rw [List.flatMap_cons, ihs, List.map_cons]
      have hhead : foldChar (pyLower c)
          = [if c ∈ defaultProtected then c else c.toLower] := by
        rcases hc with hprot | hletter
        · simp only [defaultProtected, List.mem_cons, List.not_mem_nil,
            or_false] at hprot
          rcases hprot with rfl | rfl | rfl | rfl <;> decide
        · exact ascii_check
            (fun c => foldChar (pyLower c)
              = [if c ∈ defaultProtected then c else c.toLower])
            (by decide) c (isAsciiLetter_lt c hletter)
      rw [hhead]
      rfl

/-- Witness for C6 at a concrete protected-plus-ASCII-letters string. -/
theorem C6_protected_preservation_witness :
    remove_accents (strL "aBñXü")
      = (strL "aBñXü").map
          (fun c => if c ∈ defaultProtected then c else c.toLower) :=
  C6_protected_preservation.1 (strL "aBñXü") (by decide)

/-! ### The spelling corrector (src/address_utils.py, `correct_spelling`) -/

/-- Python's `\w` (`re` word character) restricted to the modelled
repertoire: ASCII alphanumerics, underscore, and the non-ASCII letters
that survive or are protected by the normalization pipeline. -/
def isWordChar (c : Char) : Bool :=
  c.isAlphanum || c = '_' || c = 'ñ' || c = 'ü' || c = 'º' ||
    c = 'á' || c = 'é' || c = 'í' || c = 'ó' || c = 'ú' || c = 'à'

/-- A character that may continue a `[\w'-]+` run: word characters plus
apostrophe and hyphen. -/
def isTokChar (c : Char) : Bool :=
  isWordChar c || c = Char.ofNat 39 || c = '-'

/-- Scanner for `re.findall(r"\b[\w\'-]+|\.", s)`.  `run` is the
current `[\w'-]+` run, reversed (`[]` when outside a run).  Inside a run
every token character is absorbed greedily; outside, a standalone period
is a token, a word character opens a run (the leading `\b` is automatic
there, and can never hold at an apostrophe or hyphen: the preceding word
character would already have absorbed them), and any other character is
skipped. -/
def tokGo (s : Str) (run : Str) : List Str :=
  match s with
  | [] => if run = [] then [] else [run.reverse]
  | c :: rest =>
      if run ≠ [] ∧ isTokChar c then tokGo rest (c :: run)
      else
        (if run = [] then [] else [run.reverse]) ++
        (if c = '.' then ['.'] :: tokGo rest []
         else if isWordChar c then tokGo rest [c]
         else tokGo rest [])

/-- `re.findall(r"\b[\w\'-]+|\.", s)`, as used on both the normalized
street name and the raw dictionary keys. -/
def tokenize (s : Str) : List Str := tokGo s []

/-- `" ".join(tokens)`. -/
def joinSp (ts : List Str) : Str :=
  match ts with
  | [] => []
  | [t] => t
  | t :: rest => t ++ ' ' :: joinSp rest

/-- Python's `phrase.replace(" .", ".")`: left-to-right, non-overlapping
replacement of every `" ."` by `"."`. -/
def rsd (s : Str) : Str :=
  match s with
  | [] => []
  | [c] => [c]
  | c :: d :: r => if c = ' ' ∧ d = '.' then '.' :: rsd r else c :: rsd (d :: r)

/-- The string the corrector compares against a dictionary key: the
token window `words[i : i+n]` joined with single spaces, with `" ."`
collapsed to `"."`. -/
def phraseAt (words : List Str) (i n : Nat) : Str :=
  rsd (joinSp ((words.drop i).take n))

/-- One key-test of the corrector's inner loop:
`i + misspelled_len <= len(words) and phrase_to_check == misspelled`. -/
def matchKey (words : List Str) (i : Nat) (k : Str) : Bool :=
  decide (i + (tokenize k).length ≤ words.length ∧
    phraseAt words i (tokenize k).length = k)

/-- Stable insertion (used to model Python's stable `sorted(...,
key=lambda item: len(item[0]), reverse=True)`): the new entry goes in
front of the first entry whose key is not strictly longer. -/
def insertEntry (x : Str × Str) (l : List (Str × Str)) : List (Str × Str) :=
  match l with
  | [] => [x]
  | y :: ys => if x.1.length < y.1.length then y :: insertEntry x ys
               else x :: y :: ys

/-- Sort the misspelling entries by key character length, descending,
stably.  (A stable sort is unique, so this insertion sort computes
exactly what Python's stable `sorted` returns.) -/
def sortEntries (l : List (Str × Str)) : List (Str × Str) :=
  match l with
  | [] => []
  | x :: xs => insertEntry x (sortEntries xs)

/-- The corrector's `while i < len(words)` loop, with explicit fuel.
`none` means the fuel ran out — which, because one iteration's behavior
depends only on the cursor, happens for every fuel precisely when the
Python loop never terminates. -/
def correctLoop (fuel : Nat) (entries : List (Str × Str)) (words : List Str)
    (i : Nat) (acc : List Str) : Option (List Str) :=
  match fuel with
  | 0 => none
  | fuel + 1 =>
      if h : i < words.length then
        match entries.find? (fun e => matchKey words i e.1) with
        | some (k, v) =>
            correctLoop fuel entries words (i + (tokenize k).length) (acc ++ [v])
        | none => correctLoop fuel entries words (i + 1) (acc ++ [words.get ⟨i, h⟩])
      else some acc

/-- The normalization prefix of `correct_spelling`: lowercase, map the
quote variants `´` and `` U+0060 `` to `'`, fold accents. -/
def normalizeStreet (street_name : Str) : Str :=
  remove_accents
    (((street_name.map pyLower).map
        (fun c => if c = '´' then Char.ofNat 39 else c)).map
      (fun c => if c = Char.ofNat 96 then Char.ofNat 39 else c))

/-- `address_utils.correct_spelling` (src/address_utils.py lines 14-63).
Fuel `words.length + 1` is exact: when every applied key consumes at
least one token the loop finishes within `words.length` iterations, and
when a zero-token key fires the loop repeats the same cursor forever, so
the function yields `none` exactly when the Python loop diverges. -/
def correct_spelling (street_name : Str) (misspellings : List (Str × Str)) :
    Option Str :=
  let words := tokenize (normalizeStreet street_name)
  (correctLoop (words.length + 1) (sortEntries misspellings) words 0 []).map
    joinSp

example : correct_spelling (strL "alacala") [(strL "alacala", strL "alcala")]
    = some (strL "alcala") := by decide

example : correct_spelling (strL "dr ortega y gasset")
    [(strL "dr", strL "doctor"),
     (strL "ortega y gasset", strL "jose ortega y gasset")]
    = some (strL "doctor jose ortega y gasset") := by decide

example : correct_spelling (strL "Dr. r dinamarca")
    [(strL "dr.", strL "doctor"), (strL "r", strL "republica")]
    = some (strL "doctor republica dinamarca") := by decide

/-- C3: the termination claim fails on the code.  With the dictionary
`{"": "x"}` — whose key tokenizes to zero tokens — and the input `"a"`,
the empty key matches at cursor 0 (`"" == ""` with `0 + 0 <= 1`), the
cursor advances by zero, and the `while` loop repeats the same state
forever: the loop runs out of any amount of fuel, and `correct_spelling`
diverges (modelled as `none`). -/
theorem C3_empty_key_divergence :
    (∀ fuel acc,
        correctLoop fuel [(([] : Str), strL "x")] [strL "a"] 0 acc = none)
    ∧ correct_spelling (strL "a") [(([] : Str), strL "x")] = none := by
  have hloop : ∀ fuel acc,
      correctLoop fuel [(([] : Str), strL "x")] [strL "a"] 0 acc = none := by
    intro fuel
    induction fuel with
    | zero => intro acc; rfl
    | succ n ih => intro acc; exact ih (acc ++ [strL "x"])
  refine ⟨hloop, ?_⟩
  rw [show correct_spelling (strL "a") [(([] : Str), strL "x")]
      = (correctLoop 2 [(([] : Str), strL "x")] [strL "a"] 0 []).map joinSp
    from rfl, hloop 2 []]
  rfl

/-- C4 counterexample: the window comparison is *not* "normalize only a
trailing `\" .\"`".  For the dictionary key `"a . b"` and an input whose
token window is exactly that key (tokens `a`, `.`, `b`), the joined
window `"a . b"` is rewritten to `"a. b"` by the global
`.replace(" .", ".")`, the comparison with the key fails, and the input
is returned unchanged instead of being replaced by `"x"`. -/
theorem C4_interior_space_dot_counterexample :
    correct_spelling (strL "a . b") [(strL "a . b", strL "x")]
        = some (strL "a . b")
      ∧ strL "a . b" ≠ strL "x" := by
  exact ⟨by decide, by decide⟩

/-- C4 (amended): the comparison normalizes *every* `" ."` occurrence of
the joined token window, not only a trailing one.  Consequently the
window `a`, `.`, `b` joins to `"a. b"`; a key containing an interior
`" ."` (such as `"a . b"`) never matches and is left unreplaced, while
the same window matches the key written as `"a. b"` and is replaced by
its correction. -/
theorem C4_space_dot_normalization :
    rsd (joinSp [strL "a", strL ".", strL "b"]) = strL "a. b"
      ∧ correct_spelling (strL "a . b") [(strL "a . b", strL "x")]
          = some (strL "a . b")
      ∧ correct_spelling (strL "a . b") [(strL "a. b", strL "x")]
          = some (strL "x") := by
  refine ⟨by decide, by decide, by decide⟩

/-! ### C1: longest-match priority of the corrector -/

/-- Well-formedness of a token produced by `tokenize`: it is either the
standalone period token or a nonempty run containing neither spaces nor
periods. -/
def IsToken (t : Str) : Prop :=
  t = ['.'] ∨ (t ≠ [] ∧ ∀ c ∈ t, c ≠ ' ' ∧ c ≠ '.')

theorem isTokChar_ne (c : Char) (h : isTokChar c = true) :
    c ≠ ' ' ∧ c ≠ '.' := by
  constructor <;> rintro rfl <;> revert h <;> decide

theorem tokGo_tokens (s : Str) : ∀ (run : Str),
    (∀ c ∈ run, isTokChar c = true) → ∀ t ∈ tokGo s run, IsToken t := by
  induction s with
  | nil =>
      intro run hrun t ht
      rw [tokGo] at ht
      split at ht
      · simp at ht
      · next hne =>
          rw [List.mem_singleton] at ht
          subst ht
          refine Or.inr ⟨by simpa using hne, ?_⟩
          intro c hc
          exact isTokChar_ne c (hrun c (by simpa using hc))
  | cons c rest ih =>
      intro run hrun t ht
      rw [tokGo] at ht
      split at ht
      · next hcond =>
          exact ih (c :: run)
            (by
              intro d hd
              rcases List.mem_cons.mp hd with rfl | hd
              · exact hcond.2
              · exact hrun d hd) t ht
      · rw [List.mem_append] at ht
        rcases ht with hemit | hrest
        · split at hemit
          · simp at hemit
          · next hne =>
              rw [List.mem_singleton] at hemit
              subst hemit
              refine Or.inr ⟨by simpa using hne, ?_⟩
              intro d hd
              exact isTokChar_ne d (hrun d (by simpa using hd))
        · split at hrest
          · rcases List.mem_cons.mp hrest with rfl | hrest'
            · exact Or.inl rfl
            · exact ih [] (by simp) t hrest'
          · split at hrest
            · next hw =>
                refine ih [c] ?_ t hrest
                intro d hd
                rw [List.mem_singleton] at hd
                subst hd
                simp [isTokChar, hw]
            · exact ih [] (by simp) t hrest

theorem tokenize_tokens (s : Str) : ∀ t ∈ tokenize s, IsToken t :=
  tokGo_tokens s [] (by simp)

theorem IsToken.ne_nil {t : Str} (h : IsToken t) : t ≠ [] := by
  rcases h with rfl | ⟨hne, _⟩
  · simp
  · exact hne

theorem IsToken.no_space {t : Str} (h : IsToken t) : ∀ c ∈ t, c ≠ ' ' := by
  rcases h with rfl | ⟨_, hall⟩
  · intro c hc; rw [List.mem_singleton] at hc; subst hc; decide
  · exact fun c hc => (hall c hc).1

theorem rsd_cons_ne (c : Char) (x : Str) (h : c ≠ ' ') :
    rsd (c :: x) = c :: rsd x := by
  match x with
  | [] => rfl
  | d :: r =>
      rw [rsd, if_neg]
      rintro ⟨rfl, -⟩
      exact h rfl

theorem rsd_append_nospace (a b : Str) (h : ∀ c ∈ a, c ≠ ' ') :
    rsd (a ++ b) = a ++ rsd b := by
  induction a with
  | nil => rfl
  | cons c a' ih =>
      rw [List.cons_append, rsd_cons_ne c _ (h c (List.mem_cons_self c a')),
        ih (fun d hd => h d (List.mem_cons_of_mem c hd)), List.cons_append]

theorem rsd_nospace (a : Str) (h : ∀ c ∈ a, c ≠ ' ') : rsd a = a := by
  have h2 := rsd_append_nospace a [] h
  rw [List.append_nil] at h2
  rw [h2, rsd, List.append_nil]

theorem rsd_length_pos (s : Str) (h : s ≠ []) : 0 < (rsd s).length := by
  match s with
  | [c] => simp [rsd]
  | c :: d :: r =>
      rw [rsd]
      split <;> simp

/-- Total character length of a token list. -/
def sumLen (ts : List Str) : Nat := (ts.map List.length).sum

theorem joinSp_cons_cons (t u : Str) (rest : List Str) :
    joinSp (t :: u :: rest) = t ++ ' ' :: joinSp (u :: rest) := rfl

theorem joinSp_ne_nil (t : Str) (rest : List Str) (h : t ≠ []) :
    joinSp (t :: rest) ≠ [] := by
  cases rest with
  | nil => exact h
  | cons u rest' =>
      rw [joinSp_cons_cons]
      simp

/-- Character length of the comparison phrase built from a well-formed
token list: the sum of the token lengths plus one for each separator
whose following token is not the period token (a separator followed by
the period token is eaten by `replace(" .", ".")`). -/
theorem len_rsd_join (ts : List Str) (hwf : ∀ t ∈ ts, IsToken t)
    (hne : ts ≠ []) :
    (rsd (joinSp ts)).length
      = sumLen ts + List.countP (fun u => decide (u ≠ ['.'])) ts.tail := by
  induction ts with
  | nil => exact absurd rfl hne
  | cons t ts' ih =>
      have hwt : IsToken t := hwf t (List.mem_cons_self t ts')
      cases ts' with
      | nil =>
          simp only [joinSp, List.tail_cons, List.countP_nil, sumLen,
            List.map_cons, List.map_nil, List.sum_cons, List.sum_nil]
          rw [rsd_nospace t hwt.no_space]
          omega
      | cons u rest' =>
          have hwu : IsToken u :=
            hwf u (List.mem_cons_of_mem t (List.mem_cons_self u rest'))
          have hwrest : ∀ x ∈ u :: rest', IsToken x :=
            fun x hx => hwf x (List.mem_cons_of_mem t hx)
          have ihs := ih hwrest (by simp)
          rw [joinSp_cons_cons, rsd_append_nospace t _ hwt.no_space,
            List.length_append]
          have hkey : (rsd (' ' :: joinSp (u :: rest'))).length
              = (if u = ['.'] then 0 else 1)
                + (rsd (joinSp (u :: rest'))).length := by
            by_cases hu : u = ['.']
            · subst hu
              cases rest' with
              | nil => rfl
              | cons w rest'' =>
                  have hexp : joinSp (['.'] :: w :: rest'')
                      = '.' :: ' ' :: joinSp (w :: rest'') := rfl
                  rw [hexp, rsd, if_pos ⟨rfl, rfl⟩,
                    rsd_cons_ne '.' _ (by decide)]
                  simp
            · rcases hwu with rfl | ⟨hune, huall⟩
              · exact absurd rfl hu
              · obtain ⟨d, u', rfl⟩ : ∃ d u', u = d :: u' := by
                  cases u with
                  | nil => exact absurd rfl hune
                  | cons d u' => exact ⟨d, u', rfl⟩
                have hd := huall d (List.mem_cons_self d u')
                obtain ⟨jrest, hj⟩ :
                    ∃ jrest, joinSp ((d :: u') :: rest') = d :: jrest := by
                  cases rest' with
                  | nil => exact ⟨u', rfl⟩
                  | cons w rest'' => exact ⟨u' ++ ' ' :: joinSp (w :: rest''), rfl⟩
                rw [hj, rsd, if_neg (by rintro ⟨-, rfl⟩; exact hd.2 rfl),
                  ← hj, if_neg hu]
                simp only [List.length_cons]
                omega
          rw [hkey, ihs]
          simp only [sumLen, List.map_cons, List.sum_cons, List.tail_cons,
            List.countP_cons]
          by_cases hu : u = ['.']
          · rw [if_pos hu, if_neg (by simp [hu])]
            omega
          · rw [if_neg hu, if_pos (by simp [hu])]
            omega

theorem sumLen_ge_len (ts : List Str) (h : ∀ t ∈ ts, t ≠ []) :
    ts.length ≤ sumLen ts := by
  induction ts with
  | nil => simp [sumLen]
  | cons t ts' ih =>
      have ht : 1 ≤ t.length :=
        Nat.one_le_iff_ne_zero.mpr
          (fun h0 => h t (List.mem_cons_self t ts')
            (List.eq_nil_of_length_eq_zero h0))
      have := ih (fun x hx => h x (List.mem_cons_of_mem t hx))
      simp only [sumLen, List.map_cons, List.sum_cons, List.length_cons] at *
      omega

theorem tail_append_ne (a b : List Str) (h : a ≠ []) :
    (a ++ b).tail = a.tail ++ b := by
  cases a with
  | nil => exact absurd rfl h
  | cons x a' => rfl

theorem sumLen_append (a b : List Str) :
    sumLen (a ++ b) = sumLen a + sumLen b := by
  simp [sumLen]

/-- Appending further well-formed tokens to a nonempty window makes the
comparison phrase strictly longer in characters. -/
theorem rsd_join_lt (w1 seg : List Str)
    (hwf1 : ∀ t ∈ w1, IsToken t) (hwfs : ∀ t ∈ seg, IsToken t)
    (hseg : seg ≠ []) :
    (rsd (joinSp w1)).length < (rsd (joinSp (w1 ++ seg))).length := by
  cases w1 with
  | nil =>
      rw [List.nil_append]
      obtain ⟨t0, seg', rfl⟩ : ∃ t0 seg', seg = t0 :: seg' := by
        cases seg with
        | nil => exact absurd rfl hseg
        | cons t0 seg' => exact ⟨t0, seg', rfl⟩
      have ht0 : t0 ≠ [] :=
        (hwfs t0 (List.mem_cons_self t0 seg')).ne_nil
      have hpos := rsd_length_pos (joinSp (t0 :: seg'))
        (joinSp_ne_nil t0 seg' ht0)
      simpa [joinSp, rsd] using hpos
  | cons t1 w1' =>
      have hne : t1 :: w1' ≠ [] := by simp
      have hL := len_rsd_join (t1 :: w1') hwf1 hne
      have hR := len_rsd_join ((t1 :: w1') ++ seg)
        (by
          intro t ht
          rcases List.mem_append.mp ht with h | h
          · exact hwf1 t h
          · exact hwfs t h)
        (by simp)
      rw [hL, hR, sumLen_append, tail_append_ne _ seg hne,
        List.countP_append]
      have hseg1 : 1 ≤ sumLen seg := by
        have hge := sumLen_ge_len seg (fun t ht => (hwfs t ht).ne_nil)
        have hlp : 1 ≤ seg.length := by
          cases seg with
          | nil => exact absurd rfl hseg
          | cons a b => simp
        omega
      omega

/-- Core length argument of claim C1: if at cursor `i` the corrector can
take both a window of `n1` tokens and a longer window of `n2` tokens,
the longer window's comparison phrase is strictly longer in characters. -/
theorem phrase_len_lt (words : List Str) (hwf : ∀ t ∈ words, IsToken t)
    (i n1 n2 : Nat) (h12 : n1 < n2) (hle : i + n2 ≤ words.length) :
    (phraseAt words i n1).length < (phraseAt words i n2).length := by
  have hlen2 : ((words.drop i).take n2).length = n2 := by
    rw [List.length_take, List.length_drop]
    omega
  have h1 : (words.drop i).take n1 = ((words.drop i).take n2).take n1 := by
    rw [List.take_take]
    congr 1
    omega
  have h2 : ((words.drop i).take n2).take n1
        ++ ((words.drop i).take n2).drop n1
      = (words.drop i).take n2 :=
    List.take_append_drop n1 _
  have hw2wf : ∀ t ∈ (words.drop i).take n2, IsToken t := fun t ht =>
    hwf t (List.drop_subset i words (List.take_subset n2 _ ht))
  have hsegne : ((words.drop i).take n2).drop n1 ≠ [] := by
    intro h0
    have := congrArg List.length h0
    rw [List.length_drop, hlen2] at this
    simp at this
    omega
  have goal2 : phraseAt words i n2
      = rsd (joinSp (((words.drop i).take n2).take n1
          ++ ((words.drop i).take n2).drop n1)) := by
    rw [phraseAt, h2]
  have goal1 : phraseAt words i n1
      = rsd (joinSp (((words.drop i).take n2).take n1)) := by
    rw [phraseAt, h1]
  rw [goal1, goal2]
  exact rsd_join_lt _ _
    (fun t ht => hw2wf t (List.take_subset n1 _ ht))
    (fun t ht => hw2wf t (List.drop_subset n1 _ ht))
    hsegne

theorem matchKey_iff (words : List Str) (i : Nat) (k : Str) :
    matchKey words i k = true ↔
      i + (tokenize k).length ≤ words.length ∧
        phraseAt words i (tokenize k).length = k := by
  rw [matchKey, decide_eq_true_eq]

theorem mem_insertEntry (x a : Str × Str) (l : List (Str × Str)) :
    a ∈ insertEntry x l ↔ a = x ∨ a ∈ l := by
  induction l with
  | nil => simp [insertEntry]
  | cons y ys ih =>
      rw [insertEntry]
      split
      · rw [List.mem_cons, ih, List.mem_cons]
        tauto
      · rw [List.mem_cons, List.mem_cons]

theorem mem_sortEntries (a : Str × Str) (l : List (Str × Str)) :
    a ∈ sortEntries l ↔ a ∈ l := by
  induction l with
  | nil => simp [sortEntries]
  | cons x xs ih =>
      rw [sortEntries, mem_insertEntry, ih, List.mem_cons]

theorem pairwise_insertEntry (x : Str × Str) (l : List (Str × Str))
    (h : l.Pairwise (fun a b => b.1.length ≤ a.1.length)) :
    (insertEntry x l).Pairwise (fun a b => b.1.length ≤ a.1.length) := by
  induction l with
  | nil => simp [insertEntry]
  | cons y ys ih =>
      rw [List.pairwise_cons] at h
      rw [insertEntry]
      split
      · next hlt =>
          rw [List.pairwise_cons]
          refine ⟨?_, ih h.2⟩
          intro z hz
          rcases (mem_insertEntry x z ys).mp hz with rfl | hz'
          · omega
          · exact h.1 z hz'
      · next hge =>
          rw [List.pairwise_cons]
          refine ⟨?_, List.pairwise_cons.mpr h⟩
          intro z hz
          rcases List.mem_cons.mp hz with rfl | hz'
          · omega
          · have := h.1 z hz'
            omega

theorem pairwise_sortEntries (l : List (Str × Str)) :
    (sortEntries l).Pairwise (fun a b => b.1.length ≤ a.1.length) := by
  induction l with
  | nil => simp [sortEntries]
  | cons x xs ih => exact pairwise_insertEntry x (sortEntries xs) ih

/-- In a length-descending entry list where every matching key is `k1`
or `k2` and `k2` is strictly longer, the scan finds `k2`'s entry. -/
theorem find_longest (entries : List (Str × Str)) (words : List Str)
    (i : Nat) (k1 k2 v2 : Str)
    (hp : entries.Pairwise (fun a b => b.1.length ≤ a.1.length))
    (hmem : (k2, v2) ∈ entries)
    (hlen : k1.length < k2.length)
    (honly : ∀ e ∈ entries, matchKey words i e.1 = true → e.1 = k1 ∨ e.1 = k2)
    (hval : ∀ e ∈ entries, e.1 = k2 → e.2 = v2)
    (hm2 : matchKey words i k2 = true) :
    entries.find? (fun e => matchKey words i e.1) = some (k2, v2) := by
  induction entries with
  | nil => exact absurd hmem (List.not_mem_nil _)
  | cons e rest ih =>
      rw [List.pairwise_cons] at hp
      by_cases hme : matchKey words i e.1 = true
      · rw [List.find?_cons_of_pos (p := fun e => matchKey words i e.1) rest hme]
        rcases honly e (List.mem_cons_self e rest) hme with he1 | he2
        · exfalso
          rcases List.mem_cons.mp hmem with heq | hmem'
          · rw [← heq] at he1
            simp only at he1
            rw [he1] at hlen
            omega
          · have := hp.1 (k2, v2) hmem'
            simp only at this
            rw [he1] at this
            omega
        · have hv := hval e (List.mem_cons_self e rest) he2
          have : e = (k2, v2) := by
            obtain ⟨e1, ev⟩ := e
            simp only at he2 hv
            rw [he2, hv]
          rw [this]
      · rw [List.find?_cons_of_neg (p := fun e => matchKey words i e.1) rest hme]
        have hmem' : (k2, v2) ∈ rest := by
          rcases List.mem_cons.mp hmem with heq | h
          · exfalso
            subst heq
            exact hme hm2
          · exact h
        exact ih hp.2 hmem'
          (fun e' he' hm => honly e' (List.mem_cons_of_mem e he') hm)
          (fun e' he' hk => hval e' (List.mem_cons_of_mem e he') hk)

/-- C1: longest-match priority of `correct_spelling`.  At any cursor
position `i` of the tokenized, normalized input, if the dictionary
contains two keys that both match there and the token sequence of `k1`
is a proper prefix of the token sequence of `k2` (and no other key
matches there), then the length-descending scan selects `k2`'s entry,
and one loop step emits `k2`'s correction and advances the cursor past
all of `k2`'s tokens — so replacements are consumed greedily from the
left and never overlap. -/
theorem C1_corrector_longest_match
    (s : Str) (d : List (Str × Str)) (i : Nat) (k1 v1 k2 v2 : Str)
    (ts : List Str) (words : List Str)
    (hw : words = tokenize (normalizeStreet s))
    (h1 : (k1, v1) ∈ d) (h2 : (k2, v2) ∈ d)
    (hpp : tokenize k2 = tokenize k1 ++ ts) (hts : ts ≠ [])
    (hm1 : matchKey words i k1 = true) (hm2 : matchKey words i k2 = true)
    (honly : ∀ e ∈ d, matchKey words i e.1 = true → e.1 = k1 ∨ e.1 = k2)
    (hval : ∀ e ∈ d, e.1 = k2 → e.2 = v2) :
    (sortEntries d).find? (fun e => matchKey words i e.1) = some (k2, v2)
    ∧ ∀ fuel acc, correctLoop (fuel + 1) (sortEntries d) words i acc
        = correctLoop fuel (sortEntries d) words
            (i + (tokenize k2).length) (acc ++ [v2]) := by
  subst hw
  have hwf := tokenize_tokens (normalizeStreet s)
  have hn : (tokenize k1).length < (tokenize k2).length := by
    rw [hpp, List.length_append]
    have hpos : 0 < ts.length := List.length_pos.mpr hts
    omega
  obtain ⟨hle1, hph1⟩ := (matchKey_iff _ _ _).mp hm1
  obtain ⟨hle2, hph2⟩ := (matchKey_iff _ _ _).mp hm2
  have hklen : k1.length < k2.length := by
    rw [← hph1, ← hph2]
    exact phrase_len_lt _ hwf i _ _ hn hle2
  have hfind := find_longest (sortEntries d) _ i k1 k2 v2
    (pairwise_sortEntries d)
    ((mem_sortEntries _ d).mpr h2)
    hklen
    (fun e he hm => honly e ((mem_sortEntries e d).mp he) hm)
    (fun e he hk => hval e ((mem_sortEntries e d).mp he) hk)
    hm2
  refine ⟨hfind, ?_⟩
  intro fuel acc
  have hilt : i < (tokenize (normalizeStreet s)).length := by omega
  rw [correctLoop, dif_pos hilt, hfind]

/-- Witness for C1 with the dictionary `{"dr": "doctor", "dr x": "y"}`
on the input `"dr x"`: both keys match at cursor 0 and the two-token key
wins. -/
theorem C1_corrector_longest_match_witness :
    (sortEntries [(strL "dr", strL "doctor"), (strL "dr x", strL "y")]).find?
        (fun e => matchKey (tokenize (normalizeStreet (strL "dr x"))) 0 e.1)
      = some (strL "dr x", strL "y") :=
  (C1_corrector_longest_match (strL "dr x")
    [(strL "dr", strL "doctor"), (strL "dr x", strL "y")] 0
    (strL "dr") (strL "doctor") (strL "dr x") (strL "y")
    [strL "x"] (tokenize (normalizeStreet (strL "dr x"))) rfl
    (by decide) (by decide) (by decide) (by decide) (by decide) (by decide)
    (by decide) (by decide)).1

/-! ### The text preprocessor (src/text_utils.py, `preprocess_text`) -/

/-- Whitespace for `re`'s `\s` and `str.split()`/`str.strip()`,
restricted to the modelled repertoire. -/
def isWs (c : Char) : Bool :=
  c = ' ' || c = '\t' || c = '\n' || c = '\r'

/-- One pass of Python's `text.replace(pat, repl)` (left-to-right,
non-overlapping), driven by fuel; each step consumes at least one input
character when `pat` is nonempty, so `fuel = s.length` is always enough
(all patterns used here are nonempty abbreviations). -/
def replaceFuel (fuel : Nat) (pat repl s : Str) : Str :=
  match fuel, s with
  | 0, s => s
  | _ + 1, [] => []
  | fuel + 1, c :: rest =>
      if pat.length ≠ 0 ∧ (c :: rest).take pat.length = pat then
        repl ++ replaceFuel fuel pat repl ((c :: rest).drop pat.length)
      else c :: replaceFuel fuel pat repl rest

/-- Python's `text.replace(pat, repl)` for nonempty `pat`. -/
def replaceList (pat repl s : Str) : Str := replaceFuel s.length pat repl s

/-- The `known_abbreviations` table of `preprocess_text`, applied in
insertion order as literal substring replacements. -/
def knownAbbreviations : List (Str × Str) :=
  [(strL "s.a.r.", strL "sar"), (strL "dr.", strL "doctor"),
   (strL "r.", strL "republica")]

/-- `re.sub(r"\s+", " ", text)`: collapse every whitespace run to a
single space.  The boolean tracks whether the previous character was
part of a run already collapsed. -/
def cwGo (s : Str) (inWs : Bool) : Str :=
  match s with
  | [] => []
  | c :: rest =>
      if isWs c then
        if inWs then cwGo rest true else ' ' :: cwGo rest true
      else c :: cwGo rest false

def collapseWs (s : Str) : Str := cwGo s false

/-- `str.split()`: split on whitespace runs, dropping empty pieces.
`acc` is the current word, reversed. -/
def swGo (s : Str) (acc : Str) : List Str :=
  match s with
  | [] => if acc = [] then [] else [acc.reverse]
  | c :: rest =>
      if isWs c then
        if acc = [] then swGo rest [] else acc.reverse :: swGo rest []
      else swGo rest (c :: acc)

def splitWs (s : Str) : List Str := swGo s []

/-- `str.strip()`. -/
def stripWs (s : Str) : Str :=
  ((s.dropWhile isWs).reverse.dropWhile isWs).reverse

/-- `text_utils.preprocess_text` (src/text_utils.py lines 5-22): fold
accents, expand the known abbreviations as literal substring
replacements, turn `-`, `.`, `/` into spaces, collapse whitespace,
optionally drop prepositions (only when the supplied list is nonempty —
Python's truthiness test), and strip.  The preposition comparison
lowercases each word as the code does. -/
def preprocess_text (text : Str) (ignore_prepositions : Option (List Str)) :
    Str :=
  let t1 := remove_accents text
  let t2 := knownAbbreviations.foldl
    (fun acc pr => replaceList pr.1 pr.2 acc) t1
  let t3 := t2.map (fun c => if c = '-' ∨ c = '.' ∨ c = '/' then ' ' else c)
  let t4 := collapseWs t3
  let t5 := match ignore_prepositions with
    | none => t4
    | some preps =>
        if preps = [] then t4
        else joinSp ((splitWs t4).filter
          (fun w => ¬ preps.contains (w.map pyLower)))
  stripWs t5

example : preprocess_text (strL "a la calle de la paloma")
    (some [strL "a", strL "en", strL "al", strL "de", strL "del",
           strL "la", strL "el", strL "los", strL "las"])
    = strL "calle paloma" := by decide

example : preprocess_text (strL "c/ Dr. Martínez de la riva") none
    = strL "c doctor martinez de la riva" := by decide

example : preprocess_text (strL "s.a.r. borbon y battemberg") none
    = strL "sar borbon y battemberg" := by decide

example : preprocess_text (strL "San blas - canillejas") none
    = strL "san blas canillejas" := by decide

/-! ### The pattern extractor and dictionary expander
    (src/dataframe_utils.py) -/

/-- A pandas cell: missing (`NaN`) or a string.  `np.nan` is itself a
non-string value, which is how a "no match" row reaches the final
upper-casing step. -/
inductive Cell where
  | na : Cell
  | str : Str → Cell
deriving DecidableEq

/-- Python `dict` assignment `d[k] = v`: update in place if the key is
present (keeping its position), else append. -/
def dictInsert (m : List (Str × Str)) (k v : Str) : List (Str × Str) :=
  if m.any (fun p => p.1 = k) then
    m.map (fun p => if p.1 = k then (k, v) else p)
  else m ++ [(k, v)]

/-- Python dict lookup `d[k]` (as an option). -/
def dlookup (m : List (Str × Str)) (k : Str) : Option Str :=
  (m.find? (fun p => p.1 = k)).map (fun p => p.2)

/-- `dataframe_utils.pair_values_to_key` (src/dataframe_utils.py lines
119-148): for every canonical key register `key.lower() -> key` and
`alias.lower() -> key` for each alias, later registrations silently
overwriting earlier ones; when `sort_keys` is true, rebuild the dict
with its keys sorted by length, descending and stably (Python's stable
`sorted(output_dict, key=len, reverse=True)`, computed here by the same
stable insertion sort used for the corrector). -/
def pair_values_to_key (input_dict : List (Str × List Str))
    (sort_keys : Bool := false) : List (Str × Str) :=
  let output_dict := input_dict.foldl
    (fun m kv =>
      (kv.2.foldl (fun m' v => dictInsert m' (v.map pyLower) kv.1)
        (dictInsert m (kv.1.map pyLower) kv.1)))
    []
  if sort_keys then sortEntries output_dict else output_dict

/-- `\b` of Python `re` at position `j` of `text`: exactly one of the
characters around the position is a word character (out of range counts
as non-word). -/
def bAt (text : Str) (j : Nat) : Bool :=
  (if j = 0 then false
   else match text.get? (j - 1) with
        | some c => isWordChar c
        | none => false)
  ≠ (match text.get? j with
     | some c => isWordChar c
     | none => false)

/-- Does the escaped-literal pattern `\b pat \b` match `text` starting
at `i`?  (Both pattern and text are outputs of `preprocess_text`, hence
already lowercase, so `re.IGNORECASE` adds nothing in the model.) -/
def matchAtB (pat text : Str) (i : Nat) : Bool :=
  decide ((text.drop i).take pat.length = pat)
    && bAt text i && bAt text (i + pat.length)

/-- `regex.search(text)` for the compiled `\b<escaped>\b` matcher:
the smallest start position at which it matches, if any. -/
def regexSearch (pat text : Str) : Option Nat :=
  (List.range (text.length + 1)).find? (matchAtB pat text)

/-- `pattern.split(" - ")[0]`: the part before the first `" - "`. -/
def beforeDash (s : Str) : Str :=
  match s with
  | [] => []
  | c :: r =>
      if c = ' ' ∧ r.take 2 = ['-', ' '] then []
      else c :: beforeDash r

/-- The construction of `compiled_patterns` in
`extract_and_store_patterns`: a dict keyed by the compiled regex — i.e.
by the preprocessed pattern text, since `re.compile` caches and returns
the same object for the same pattern string — mapping to the full
canonical name. -/
def compilePatterns (pattern_to_full_name : List (Str × Str))
    (composed : Bool) (ignore_prepositions : Option (List Str)) :
    List (Str × Str) :=
  pattern_to_full_name.foldl
    (fun m pr =>
      dictInsert m
        (preprocess_text (if composed then beforeDash pr.1 else pr.1)
          ignore_prepositions)
        pr.2)
    []

/-- One iteration of `find_earliest_pattern`'s matcher loop: keep the
current best unless this matcher finds a strictly earlier start
(`match.start() < earliest_match.start()`), so ties keep the matcher
seen first. -/
def earliestStep (processed : Str) (best : Option (Nat × Str))
    (pr : Str × Str) : Option (Nat × Str) :=
  match regexSearch pr.1 processed with
  | none => best
  | some st =>
      match best with
      | none => some (st, pr.2)
      | some (bst, _) => if st < bst then some (st, pr.2) else best

/-- The inner `find_earliest_pattern` of `extract_and_store_patterns`
(src/dataframe_utils.py lines 92-107): missing input short-circuits to
missing; otherwise every matcher is searched in iteration order and the
strictly earliest match start wins (ties keep the first matcher seen). -/
def find_earliest_pattern (compiled_patterns : List (Str × Str))
    (ignore_prepositions : Option (List Str)) (text : Cell) : Cell :=
  match text with
  | Cell.na => Cell.na
  | Cell.str s =>
      let processed := preprocess_text s ignore_prepositions
      match compiled_patterns.foldl (earliestStep processed) none with
      | some pr => Cell.str pr.2
      | none => Cell.na

/-- The patterns argument of `extract_and_store_patterns`: either a
plain list or a canonical-to-aliases dict. -/
inductive PatInput where
  | plist : List Str → PatInput
  | pdict : List (Str × List Str) → PatInput

/-- `{pattern.lower(): pattern for pattern in patterns}` for the list
form, `pair_values_to_key(patterns, sort_keys=True)` for the dict
form. -/
def patternMap (patterns : PatInput) : List (Str × Str) :=
  match patterns with
  | PatInput.plist ps =>
      ps.foldl (fun m p => dictInsert m (p.map pyLower) p) []
  | PatInput.pdict d => pair_values_to_key d true

/-- The upper-casing apply:
`lambda x: x.upper() if isinstance(x, str) else x`. -/
def upperCell (c : Cell) : Cell :=
  match c with
  | Cell.str s => Cell.str (s.map pyUpper)
  | other => other

/-- `dataframe_utils.extract_and_store_patterns` (src/dataframe_utils.py
lines 48-118), restricted to the target column it produces: compile the
patterns, map `find_earliest_pattern` over the base column, then
upper-case the string results. -/
def extract_and_store_patterns (patterns : PatInput) (composed : Bool)
    (ignore_prepositions : Option (List Str)) (base_col : List Cell) :
    List Cell :=
  let compiled := compilePatterns (patternMap patterns) composed
    ignore_prepositions
  (base_col.map
    (find_earliest_pattern compiled ignore_prepositions)).map upperCell

example : extract_and_store_patterns
    (PatInput.plist [strL "la corte de faraon", strL "pico gol"])
    false none
    [Cell.str (strL "La Corte de Faraon"), Cell.str (strL "Valleguerra"),
     Cell.na]
    = [Cell.str (strL "LA CORTE DE FARAON"), Cell.na, Cell.na] := by decide

example : extract_and_store_patterns
    (PatInput.plist [strL "san blas - canillejas"]) true none
    [Cell.str (strL "san blas, 36")]
    = [Cell.str (strL "SAN BLAS - CANILLEJAS")] := by decide

theorem foldl_earliestStep_keep (t : Str) (L : List (Str × Str))
    (s : Nat) (nm : Str)
    (h : ∀ p ∈ L, ∀ sp, regexSearch p.1 t = some sp → s ≤ sp) :
    L.foldl (earliestStep t) (some (s, nm)) = some (s, nm) := by
  induction L with
  | nil => rfl
  | cons p rest ih =>
      rw [List.foldl_cons]
      have hstep : earliestStep t (some (s, nm)) p = some (s, nm) := by
        rw [earliestStep]
        cases hse : regexSearch p.1 t with
        | none => rfl
        | some sp =>
            have := h p (List.mem_cons_self p rest) sp hse
            simp only
            rw [if_neg (by omega)]
      rw [hstep]
      exact ih (fun q hq => h q (List.mem_cons_of_mem p hq))

theorem foldl_earliestStep_origin (t : Str) (L : List (Str × Str)) :
    ∀ (b : Option (Nat × Str)) (sb : Nat) (nb : Str),
      L.foldl (earliestStep t) b = some (sb, nb) →
      b = some (sb, nb) ∨ ∃ p ∈ L, regexSearch p.1 t = some sb ∧ nb = p.2 := by
  induction L with
  | nil =>
      intro b sb nb h
      exact Or.inl h
  | cons p rest ih =>
      intro b sb nb h
      rw [List.foldl_cons] at h
      rcases ih (earliestStep t b p) sb nb h with hstep | ⟨q, hq, hqs⟩
      · rw [earliestStep] at hstep
        cases hse : regexSearch p.1 t with
        | none =>
            rw [hse] at hstep
            exact Or.inl hstep
        | some sp =>
            rw [hse] at hstep
            cases b with
            | none =>
                simp only at hstep
                rw [Option.some_inj] at hstep
                injection hstep with ha hb
                refine Or.inr ⟨p, List.mem_cons_self p rest, ?_, ?_⟩
                · rw [hse, ha]
                · exact hb.symm
            | some pr =>
                obtain ⟨bs, bn⟩ := pr
                simp only at hstep
                split at hstep
                · rw [Option.some_inj] at hstep
                  injection hstep with ha hb
                  refine Or.inr ⟨p, List.mem_cons_self p rest, ?_, ?_⟩
                  · rw [hse, ha]
                  · exact hb.symm
                · exact Or.inl hstep
      · exact Or.inr ⟨q, List.mem_cons_of_mem p hq, hqs⟩

/-- C2: earliest-match priority of the extractor.  Writing the compiled
matcher collection as `L1 ++ pj :: L2` (so `pj` is the matcher at some
iteration position), if `pj`'s earliest occurrence in the preprocessed
text starts at `s`, every matcher *before* it starts strictly later (or
not at all), and no matcher anywhere starts earlier than `s`, then the
extractor returns `pj`'s canonical label — ties at the same offset go to
the matcher encountered first, and match lengths are never compared. -/
theorem C2_earliest_match
    (preps : Option (List Str)) (txt : Str)
    (L1 L2 : List (Str × Str)) (pj : Str × Str) (s : Nat)
    (hs : regexSearch pj.1 (preprocess_text txt preps) = some s)
    (hbefore : ∀ p ∈ L1, ∀ sp,
      regexSearch p.1 (preprocess_text txt preps) = some sp → s < sp)
    (hall : ∀ p ∈ L1 ++ pj :: L2, ∀ sp,
      regexSearch p.1 (preprocess_text txt preps) = some sp → s ≤ sp) :
    find_earliest_pattern (L1 ++ pj :: L2) preps (Cell.str txt)
      = Cell.str pj.2 := by
  rw [find_earliest_pattern]
  have hfold : (L1 ++ pj :: L2).foldl
      (earliestStep (preprocess_text txt preps)) none = some (s, pj.2) := by
    rw [List.foldl_append, List.foldl_cons]
    have hstep : earliestStep (preprocess_text txt preps)
        (L1.foldl (earliestStep (preprocess_text txt preps)) none) pj
        = some (s, pj.2) := by
      cases hb : L1.foldl (earliestStep (preprocess_text txt preps)) none with
      | none => rw [earliestStep, hs]
      | some pr =>
          obtain ⟨bs, bn⟩ := pr
          rcases foldl_earliestStep_origin _ L1 none bs bn hb with h0 | hex
          · exact absurd h0 (by simp)
          · obtain ⟨q, hq, hqs, -⟩ := hex
            have hlt := hbefore q hq bs hqs
            rw [earliestStep, hs]
            show (if s < bs then some (s, pj.2) else some (bs, bn))
              = some (s, pj.2)
            rw [if_pos hlt]
    rw [hstep]
    exact foldl_earliestStep_keep _ L2 s pj.2
      (fun q hq => hall q (List.mem_append.mpr
        (Or.inr (List.mem_cons_of_mem pj hq))))
  rw [hfold]

/-- Witness for C2: with patterns `a` then `b` over the text `"b a"`,
matcher `b` (second in iteration order) has the earlier occurrence and
its label is returned. -/
theorem C2_earliest_match_witness :
    find_earliest_pattern
        [(strL "a", strL "A"), (strL "b", strL "B")] none
        (Cell.str (strL "b a"))
      = Cell.str (strL "B") :=
  C2_earliest_match none (strL "b a")
    [(strL "a", strL "A")] [] (strL "b", strL "B") 0
    (by decide) (by decide) (by decide)

/-- C8: in the dataset-level extractor, a missing source cell yields a
missing output and short-circuits before any matcher is consulted (the
result on `NaN` does not depend on the matcher collection at all); a
matched row's label is emitted upper-cased; and the upper-casing apply
passes a non-string value (the `NaN` marker) through unchanged.  All
operations are total — no error is raised. -/
theorem C8_missing_and_uppercase
    (patterns : PatInput) (composed : Bool) (preps : Option (List Str))
    (rows : List Cell) (i : Nat) :
    (∀ compiled, find_earliest_pattern compiled preps Cell.na = Cell.na)
    ∧ (rows.get? i = some Cell.na →
        (extract_and_store_patterns patterns composed preps rows).get? i
          = some Cell.na)
    ∧ (∀ s name, rows.get? i = some (Cell.str s) →
        find_earliest_pattern
            (compilePatterns (patternMap patterns) composed preps) preps
            (Cell.str s) = Cell.str name →
        (extract_and_store_patterns patterns composed preps rows).get? i
          = some (Cell.str (name.map pyUpper)))
    ∧ upperCell Cell.na = Cell.na := by
  refine ⟨fun compiled => rfl, ?_, ?_, rfl⟩
  · intro h
    rw [extract_and_store_patterns]
    rw [List.get?_map, List.get?_map, h]
    rfl
  · intro s name h1 h2
    rw [extract_and_store_patterns]
    rw [List.get?_map, List.get?_map, h1]
    show some (upperCell (find_earliest_pattern
      (compilePatterns (patternMap patterns) composed preps) preps
      (Cell.str s))) = _
    rw [h2]
    rfl

/-- Witness for C8 on a two-row column with one missing cell and one
matching cell. -/
theorem C8_missing_and_uppercase_witness :
    (extract_and_store_patterns (PatInput.plist [strL "ab"]) false none
        [Cell.na, Cell.str (strL "ab")]).get? 0 = some Cell.na
    ∧ (extract_and_store_patterns (PatInput.plist [strL "ab"]) false none
        [Cell.na, Cell.str (strL "ab")]).get? 1
      = some (Cell.str (strL "AB")) :=
  ⟨(C8_missing_and_uppercase (PatInput.plist [strL "ab"]) false none
      [Cell.na, Cell.str (strL "ab")] 0).2.1 (by decide),
   (C8_missing_and_uppercase (PatInput.plist [strL "ab"]) false none
      [Cell.na, Cell.str (strL "ab")] 1).2.2.1 (strL "ab") (strL "ab")
      (by decide) (by decide)⟩

/-! ### C7: the dictionary expander -/

theorem dlookup_nil (name : Str) : dlookup [] name = none := rfl

theorem dlookup_cons (p : Str × Str) (m : List (Str × Str)) (name : Str) :
    dlookup (p :: m) name
      = if p.1 = name then some p.2 else dlookup m name := by
  rw [dlookup, dlookup]
  by_cases h : p.1 = name
  · rw [List.find?_cons_of_pos (p := fun q => q.1 = name) m (by simp [h]),
      if_pos h]
    rfl
  · rw [List.find?_cons_of_neg (p := fun q => q.1 = name) m (by simp [h]),
      if_neg h]

theorem dlookup_map_update (m : List (Str × Str)) (k v name : Str) :
    dlookup (m.map (fun p => if p.1 = k then (k, v) else p)) name
      = if name = k then
          (if m.any (fun p => p.1 = k) then some v else none)
        else dlookup m name := by
  induction m with
  | nil =>
      rw [List.map_nil, List.any_nil, dlookup_nil]
      split <;> rfl
  | cons p m' ih =>
      rw [List.map_cons, dlookup_cons, List.any_cons, dlookup_cons]
      by_cases hp : p.1 = k
      · by_cases hn : name = k
        · subst hn
          simp [hp, ih]
        · simp [hp, hn, ih, show ¬(k = name) from fun h => hn h.symm]
      · by_cases hn : name = k
        · subst hn
          rw [if_neg hp, if_neg hp, ih, if_pos rfl,
            decide_eq_false hp, Bool.false_or, if_pos rfl]
        · simp [hp, hn, ih]

theorem find?_append_singleton (l : List (Str × Str)) (a : Str × Str)
    (q : Str × Str → Bool) :
    (l ++ [a]).find? q
      = match l.find? q with
        | some x => some x
        | none => if q a then some a else none := by
  induction l with
  | nil =>
      rw [List.nil_append]
      cases hq : q a with
      | false =>
          rw [List.find?_cons_of_neg (p := q) [] (by simp [hq])]
          rfl
      | true =>
          rw [List.find?_cons_of_pos (p := q) [] hq]
          rfl
  | cons p l' ih =>
      cases hp : q p with
      | false =>
          rw [List.cons_append,
            List.find?_cons_of_neg (p := q) (l' ++ [a]) (by simp [hp]),
            List.find?_cons_of_neg (p := q) l' (by simp [hp])]
          exact ih
      | true =>
          rw [List.cons_append,
            List.find?_cons_of_pos (p := q) (l' ++ [a]) hp,
            List.find?_cons_of_pos (p := q) l' hp]

theorem dlookup_dictInsert (m : List (Str × Str)) (k v name : Str) :
    dlookup (dictInsert m k v) name
      = if name = k then some v else dlookup m name := by
  rw [dictInsert]
  by_cases hany : m.any (fun p => p.1 = k)
  · rw [if_pos hany, dlookup_map_update, if_pos hany]
  · rw [if_neg hany, dlookup, find?_append_singleton]
    by_cases hn : name = k
    · subst hn
      have h0 : m.find? (fun p => p.1 = name) = none := by
        rw [List.find?_eq_none]
        intro p hp
        simp only [decide_eq_true_eq]
        intro hpk
        exact hany (List.any_eq_true.mpr ⟨p, hp, by simp [hpk]⟩)
      rw [h0, if_pos rfl]
      simp
    · rw [if_neg hn]
      cases hf : m.find? (fun p => p.1 = name) with
      | some x => rw [dlookup, hf]
      | none =>
          rw [dlookup, hf]
          simp [show ¬(k = name) from fun h => hn h.symm]

/-- The flat sequence of registrations performed by
`pair_values_to_key`: for each entry, `key.lower() -> key` followed by
`alias.lower() -> key` for each alias, in order. -/
def regList (input_dict : List (Str × List Str)) : List (Str × Str) :=
  input_dict.flatMap
    (fun kv => (kv.1.map pyLower, kv.1)
      :: kv.2.map (fun v => (v.map pyLower, kv.1)))

/-- The canonical key attached to the *last* registration of `name`,
if any. -/
def lastRegLookup (input_dict : List (Str × List Str)) (name : Str) :
    Option Str :=
  ((regList input_dict).reverse.find? (fun p => p.1 = name)).map
    (fun p => p.2)

theorem dlookup_foldl (regs : List (Str × Str)) :
    ∀ (m0 : List (Str × Str)) (name : Str),
      dlookup (regs.foldl (fun m pr => dictInsert m pr.1 pr.2) m0) name
        = match regs.reverse.find? (fun p => p.1 = name) with
          | some pr => some pr.2
          | none => dlookup m0 name := by
  induction regs with
  | nil =>
      intro m0 name
      rfl
  | cons r regs' ih =>
      intro m0 name
      rw [List.foldl_cons, ih, List.reverse_cons, find?_append_singleton]
      cases hf : regs'.reverse.find? (fun p => p.1 = name) with
      | some x => rfl
      | none =>
          rw [dlookup_dictInsert]
          by_cases hn : r.1 = name
          · rw [if_pos hn.symm, if_pos (decide_eq_true hn)]
          · rw [if_neg (fun h => hn h.symm),
              if_neg (by rw [decide_eq_false hn]; exact Bool.false_ne_true)]

theorem regList_cons (kv : Str × List Str) (d' : List (Str × List Str)) :
    regList (kv :: d')
      = ((kv.1.map pyLower, kv.1)
          :: kv.2.map (fun v => (v.map pyLower, kv.1))) ++ regList d' := by
  simp [regList]

theorem pvk_unsorted_inner (d : List (Str × List Str)) :
    ∀ m0 : List (Str × Str),
      d.foldl
        (fun m kv =>
          kv.2.foldl (fun m' v => dictInsert m' (v.map pyLower) kv.1)
            (dictInsert m (kv.1.map pyLower) kv.1))
        m0
      = (regList d).foldl (fun m pr => dictInsert m pr.1 pr.2) m0 := by
  induction d with
  | nil => intro m0; rfl
  | cons kv d' ih =>
      intro m0
      rw [List.foldl_cons, ih, regList_cons, List.foldl_append,
        List.foldl_cons, List.foldl_map]

theorem pvk_unsorted_eq (d : List (Str × List Str)) :
    pair_values_to_key d false
      = (regList d).foldl (fun m pr => dictInsert m pr.1 pr.2) [] := by
  rw [pair_values_to_key]
  exact pvk_unsorted_inner d []

theorem perm_insertEntry (x : Str × Str) (l : List (Str × Str)) :
    (insertEntry x l).Perm (x :: l) := by
  induction l with
  | nil => exact List.Perm.refl _
  | cons y ys ih =>
      rw [insertEntry]
      split
      · exact (ih.cons y).trans (List.Perm.swap x y ys)
      · exact List.Perm.refl _

theorem perm_sortEntries (l : List (Str × Str)) :
    (sortEntries l).Perm l := by
  induction l with
  | nil => exact List.Perm.refl _
  | cons x xs ih =>
      rw [sortEntries]
      exact (perm_insertEntry x (sortEntries xs)).trans (ih.cons x)

/-- The keys of a model dict, in iteration order. -/
def dkeys (m : List (Str × Str)) : List Str := m.map (fun p => p.1)

theorem dkeys_dictInsert_of_any (m : List (Str × Str)) (k v : Str)
    (h : m.any (fun p => p.1 = k) = true) :
    dkeys (dictInsert m k v) = dkeys m := by
  rw [dkeys, dictInsert, if_pos h, List.map_map, dkeys]
  apply List.map_congr_left
  intro p hp
  show (if p.1 = k then (k, v) else p).1 = p.1
  split
  · next heq => rw [← heq]
  · rfl

theorem nodup_dkeys_dictInsert (m : List (Str × Str)) (k v : Str)
    (h : (dkeys m).Nodup) : (dkeys (dictInsert m k v)).Nodup := by
  by_cases hany : m.any (fun p => p.1 = k)
  · rw [dkeys_dictInsert_of_any m k v hany]
    exact h
  · rw [dkeys, dictInsert, if_neg hany, List.map_append]
    refine List.Nodup.append h (by simp) ?_
    intro a ha hb
    rw [List.map_cons, List.map_nil, List.mem_singleton] at hb
    subst hb
    rw [List.mem_map] at ha
    obtain ⟨p, hp, hpk⟩ := ha
    exact hany (List.any_eq_true.mpr ⟨p, hp, by simp [hpk]⟩)

theorem nodup_dkeys_foldl (regs : List (Str × Str)) :
    ∀ m0, (dkeys m0).Nodup →
      (dkeys (regs.foldl (fun m pr => dictInsert m pr.1 pr.2) m0)).Nodup := by
  induction regs with
  | nil => intro m0 h; exact h
  | cons r regs' ih =>
      intro m0 h
      rw [List.foldl_cons]
      exact ih _ (nodup_dkeys_dictInsert m0 r.1 r.2 h)

theorem nodup_dkeys_pvk (d : List (Str × List Str)) :
    (dkeys (pair_values_to_key d false)).Nodup := by
  rw [pvk_unsorted_eq]
  exact nodup_dkeys_foldl (regList d) [] (by simp [dkeys])

theorem entry_unique (m : List (Str × Str)) (h : (dkeys m).Nodup)
    (e e' : Str × Str) (he : e ∈ m) (he' : e' ∈ m) (hk : e.1 = e'.1) :
    e = e' := by
  induction m with
  | nil => exact absurd he (List.not_mem_nil e)
  | cons p m' ih =>
      rw [dkeys, List.map_cons, List.nodup_cons] at h
      rcases List.mem_cons.mp he with rfl | he1
      · rcases List.mem_cons.mp he' with rfl | he2
        · rfl
        · exact absurd (List.mem_map.mpr ⟨e', he2, hk.symm⟩) h.1
      · rcases List.mem_cons.mp he' with rfl | he2
        · exact absurd (List.mem_map.mpr ⟨e, he1, hk⟩) h.1
        · exact ih h.2 he1 he2

theorem dlookup_perm (m m' : List (Str × Str)) (name : Str)
    (hperm : m'.Perm m) (h : (dkeys m).Nodup) :
    dlookup m' name = dlookup m name := by
  cases hl : dlookup m name with
  | none =>
      rw [dlookup] at hl ⊢
      rw [Option.map_eq_none'] at hl ⊢
      rw [List.find?_eq_none] at hl ⊢
      intro p hp
      exact hl p (hperm.mem_iff.mp hp)
  | some v =>
      rw [dlookup] at hl
      rw [Option.map_eq_some'] at hl
      obtain ⟨e, he, hev⟩ := hl
      have heme : e ∈ m := List.mem_of_find?_eq_some he
      have hpe : e.1 = name := by
        have := List.find?_some he
        simpa using this
      have hsome : (m'.find? (fun p => p.1 = name)).isSome := by
        rw [List.find?_isSome]
        exact ⟨e, hperm.mem_iff.mpr heme, by simp [hpe]⟩
      obtain ⟨e', he'⟩ := Option.isSome_iff_exists.mp hsome
      have heme' : e' ∈ m := hperm.mem_iff.mp (List.mem_of_find?_eq_some he')
      have hpe' : e'.1 = name := by
        have := List.find?_some he'
        simpa using this
      have : e' = e := entry_unique m h e' e heme' heme (by rw [hpe, hpe'])
      rw [dlookup, he', this, Option.map_some', hev]

theorem filter_insertEntry (x : Str × Str) (l : List (Str × Str)) (n : Nat) :
    (insertEntry x l).filter (fun e => e.1.length = n)
      = if x.1.length = n then
          x :: l.filter (fun e => e.1.length = n)
        else l.filter (fun e => e.1.length = n) := by
  induction l with
  | nil =>
      rw [insertEntry]
      by_cases hx : x.1.length = n
      · rw [if_pos hx]
        simp [List.filter, hx]
      · rw [if_neg hx]
        simp [List.filter, hx]
  | cons y ys ih =>
      rw [insertEntry]
      split
      · next hlt =>
          by_cases hx : x.1.length = n
          · have hy : ¬ (y.1.length = n) := by omega
            rw [List.filter_cons, if_neg (by simpa using hy), ih, if_pos hx,
              if_pos hx, List.filter_cons, if_neg (by simpa using hy)]
          · rw [List.filter_cons, ih, if_neg hx, if_neg hx, List.filter_cons]
      · next hge =>
          rw [List.filter_cons]
          by_cases hx : x.1.length = n
          · rw [if_pos (by simpa using hx), if_pos hx]
          · rw [if_neg (by simpa using hx), if_neg hx]

theorem filter_sortEntries (l : List (Str × Str)) (n : Nat) :
    (sortEntries l).filter (fun e => e.1.length = n)
      = l.filter (fun e => e.1.length = n) := by
  induction l with
  | nil => rfl
  | cons x xs ih =>
      rw [sortEntries, filter_insertEntry, List.filter_cons]
      by_cases hx : x.1.length = n
      · rw [if_pos hx, if_pos (by simp [hx]), ih]
      · rw [if_neg hx, if_neg (by simp [hx]), ih]

/-- C7: the dictionary expander.  (1) Lookup in the unsorted expansion
returns, for every name, the canonical key of the *last* registration of
that lowercased name (lowercased canonical keys and aliases map to their
canonical key; a later colliding registration silently overwrites an
earlier one; unregistered names are absent).  (2) Sorting does not
change the mapping.  (3) With `sort_keys` the keys come out in
descending character-length order, and (4) entries of equal key length
keep exactly their unsorted relative order (stability). -/
theorem C7_pair_values_to_key (d : List (Str × List Str)) :
    (∀ name, dlookup (pair_values_to_key d false) name = lastRegLookup d name)
    ∧ (∀ name, dlookup (pair_values_to_key d true) name
        = dlookup (pair_values_to_key d false) name)
    ∧ (pair_values_to_key d true).Pairwise
        (fun a b => b.1.length ≤ a.1.length)
    ∧ ∀ n, (pair_values_to_key d true).filter (fun e => e.1.length = n)
        = (pair_values_to_key d false).filter (fun e => e.1.length = n) := by
  have hsorted : pair_values_to_key d true
      = sortEntries (pair_values_to_key d false) := rfl
  refine ⟨?_, ?_, ?_, ?_⟩
  · intro name
    rw [pvk_unsorted_eq, dlookup_foldl, lastRegLookup]
    cases hf : (regList d).reverse.find? (fun p => p.1 = name) <;> rfl
  · intro name
    rw [hsorted]
    exact dlookup_perm _ _ name (perm_sortEntries _) (nodup_dkeys_pvk d)
  · rw [hsorted]
    exact pairwise_sortEntries _
  · intro n
    rw [hsorted]
    exact filter_sortEntries _ n

/-! ### C9 and C10: `get_unique_names` and `fill_na_df`
    (src/dataframe_utils.py) -/

/-- A dataframe: named columns of cells, rows aligned by position (the
default `RangeIndex`). -/
def Df := List (Str × List Cell)

instance : DecidableEq Df := by
  unfold Df
  infer_instance

def colNames (df : Df) : List Str := df.map (fun col => col.1)

def getCol (df : Df) (name : Str) : List Cell :=
  ((df.find? (fun col => col.1 = name)).map (fun col => col.2)).getD []

/-- The string cells of a column, in order (`dropna` plus the model's
restriction of `astype(str)` to string-valued cells). -/
def vals (col : List Cell) : List Str :=
  col.filterMap (fun c => match c with
    | Cell.str s => some s
    | Cell.na => none)

/-- `pd.unique` / `set`: drop later duplicates, keeping first
occurrences; `seen` holds the values already emitted. -/
def dedupGo (l : List Str) (seen : List Str) : List Str :=
  match l with
  | [] => []
  | x :: xs => if x ∈ seen then dedupGo xs seen else x :: dedupGo xs (x :: seen)

def dedupStrs (l : List Str) : List Str := dedupGo l []

/-- Python string comparison (code-point lexicographic `<=`). -/
def lexLe (a b : Str) : Bool :=
  match a, b with
  | [], _ => true
  | _ :: _, [] => false
  | c :: a', d :: b' => if c = d then lexLe a' b' else decide (c < d)

/-- The sort key `lambda s: (-len(s), s)`: longer first, ties by
ascending code-point order. -/
def gunBefore (a b : Str) : Bool :=
  b.length < a.length || (decide (a.length = b.length) && lexLe a b)

def insertStr (x : Str) (l : List Str) : List Str :=
  match l with
  | [] => [x]
  | y :: ys => if gunBefore x y then x :: y :: ys else y :: insertStr x ys

/-- `sorted(..., key=lambda s: (-len(s), s))`.  The key is injective on
distinct strings, so any sort computes the same list regardless of the
input (set) order. -/
def sortStrs (l : List Str) : List Str :=
  match l with
  | [] => []
  | x :: xs => insertStr x (sortStrs xs)

/-- The successful-path computation of `get_unique_names`: per-column
unique values (first occurrences kept), lowercased, the second column
included only when `target_var2` is truthy, then dedupe and sort. -/
def gunCompute (df : Df) (target_var : Str) (target_var2 : Option Str) :
    List Str :=
  let names := (dedupStrs (vals (getCol df target_var))).map
    (fun s => s.map pyLower)
  let names2 := match target_var2 with
    | some c =>
        if c ≠ [] then
          (dedupStrs (vals (getCol df c))).map (fun s => s.map pyLower)
        else []
    | none => []
  sortStrs (dedupStrs (names ++ names2))

/-- `dataframe_utils.get_unique_names` (src/dataframe_utils.py lines
10-45): raise `KeyError` for a missing column (checking `target_var2`
only when it is not `None`); collect the per-column unique values,
lowercase them, merge the second column only when `target_var2` is
*truthy* (non-`None` and nonempty), dedupe and sort by descending length
with ascending lexicographic tie-break. -/
def get_unique_names (df : Df) (target_var : Str)
    (target_var2 : Option Str := none) : Except Str (List Str) :=
  if ¬ target_var ∈ colNames df then
    Except.error (strL "Column not found: " ++ target_var)
  else
    match target_var2 with
    | some c =>
        if ¬ c ∈ colNames df then
          Except.error (strL "Column not found: " ++ c)
        else Except.ok (gunCompute df target_var (some c))
    | none => Except.ok (gunCompute df target_var none)

example : get_unique_names
    [(strL "col1", [Cell.str (strL "Alice"), Cell.str (strL "Bob"),
      Cell.str (strL "alice"), Cell.str (strL "Charlie"), Cell.na,
      Cell.str (strL "Arroyomolinos"), Cell.str (strL "Molinos")])]
    (strL "col1") none
    = Except.ok [strL "arroyomolinos", strL "charlie", strL "molinos",
        strL "alice", strL "bob"] := rfl

/-- `df2.loc[row.name, filler_col]` under the aligned-`RangeIndex`
modelling assumption (missing when the row index is absent). -/
def locAt (df2 : Df) (fcol : Str) (i : Nat) : Cell :=
  (getCol df2 fcol).getD i Cell.na

/-- One `df[target_col] = df.apply(...)` assignment of `fill_na_df`:
keep present values, fill missing ones from `df2`'s filler column at the
same row label. -/
def fillPair (df df2 : Df) (tcol fcol : Str) : Df :=
  df.map (fun col =>
    if col.1 = tcol then
      (col.1, (col.2.enum).map
        (fun ic => if ic.2 = Cell.na then locAt df2 fcol ic.1 else ic.2))
    else col)

/-- The per-pair loop of `fill_na_df`: each pair's column existence is
checked only when the loop reaches it, *after* all earlier pairs' rows
have been filled; an exception leaves the already-performed in-place
updates visible to the caller, which the model returns alongside the
error. -/
def fillLoop (df df2 : Df) (pairs : List (Str × Str)) : Df × Option Str :=
  match pairs with
  | [] => (df, none)
  | (t, f) :: rest =>
      if ¬ t ∈ colNames df ∨ ¬ f ∈ colNames df2 then
        (df, some (strL "Column not found in respective DataFrame: "
          ++ t ++ strL " or " ++ f))
      else fillLoop (fillPair df df2 t f) df2 rest

/-- `dataframe_utils.fill_na_df` (src/dataframe_utils.py lines 151-198).
The result pairs the dataframe as mutated so far with the raised error,
if any. -/
def fill_na_df (df df2 : Df) (target_columns : List Str)
    (filler_columns : Option (List Str) := none) : Df × Option Str :=
  let fills := filler_columns.getD target_columns
  if target_columns.length ≠ fills.length then
    (df, some (strL
      "The length of target_columns and filler_columns must be the same."))
  else fillLoop df df2 (target_columns.zip fills)

/-- C9 counterexample: the claim "the error is raised before any row is
processed" fails for `fill_na_df`.  With `target_columns = ["a", "b"]`
where `"a"` is valid and `"b"` is missing, the error is raised only when
the loop reaches the second pair — after every row of column `"a"` has
already been filled, as the changed dataframe shows. -/
theorem C9_partial_fill_counterexample :
    (fill_na_df [(strL "a", [Cell.na]), (strL "b", [Cell.na])]
        [(strL "a", [Cell.str (strL "x")])]
        [strL "a", strL "b"] none).2.isSome = true
    ∧ (fill_na_df [(strL "a", [Cell.na]), (strL "b", [Cell.na])]
        [(strL "a", [Cell.str (strL "x")])]
        [strL "a", strL "b"] none).1
      ≠ [(strL "a", [Cell.na]), (strL "b", [Cell.na])] := by
  exact ⟨rfl, by decide⟩

/-- C9 (amended): `get_unique_names` raises its `KeyError` for a missing
column before touching any data, and `fill_na_df` raises its
length-mismatch `ValueError` before processing any row; but `fill_na_df`
checks each pair's column existence only when the loop reaches that
pair, so a first-pair error precedes any row processing while an error
on a later pair is raised only after all earlier pairs' rows were
filled (last conjunct: a valid pair is processed before the next pair is
even examined). -/
theorem C9_validation_errors :
    (∀ (df : Df) (t1 : Str) (t2 : Option Str), t1 ∉ colNames df →
        get_unique_names df t1 t2
          = Except.error (strL "Column not found: " ++ t1))
    ∧ (∀ (df : Df) (t1 c : Str), t1 ∈ colNames df → c ∉ colNames df →
        get_unique_names df t1 (some c)
          = Except.error (strL "Column not found: " ++ c))
    ∧ (∀ (df df2 : Df) (tcols : List Str) (fcols : Option (List Str)),
        tcols.length ≠ (fcols.getD tcols).length →
        fill_na_df df df2 tcols fcols
          = (df, some (strL
              "The length of target_columns and filler_columns must be the same.")))
    ∧ (∀ (df df2 : Df) (t f : Str) (rest : List (Str × Str)),
        (t ∉ colNames df ∨ f ∉ colNames df2) →
        fillLoop df df2 ((t, f) :: rest)
          = (df, some (strL "Column not found in respective DataFrame: "
              ++ t ++ strL " or " ++ f)))
    ∧ (∀ (df df2 : Df) (t f : Str) (rest : List (Str × Str)),
        t ∈ colNames df → f ∈ colNames df2 →
        fillLoop df df2 ((t, f) :: rest)
          = fillLoop (fillPair df df2 t f) df2 rest) := by
  refine ⟨?_, ?_, ?_, ?_, ?_⟩
  · intro df t1 t2 h
    rw [get_unique_names.eq_def, if_pos h]
  · intro df t1 c h1 h2
    rw [get_unique_names.eq_def, if_neg (not_not_intro h1)]
    show (if ¬ c ∈ colNames df then
        Except.error (strL "Column not found: " ++ c)
      else Except.ok (gunCompute df t1 (some c))) = _
    rw [if_pos h2]
  · intro df df2 tcols fcols h
    simp only [fill_na_df]
    rw [if_pos h]
  · intro df df2 t f rest h
    rw [fillLoop, if_pos h]
  · intro df df2 t f rest ht hf
    rw [fillLoop, if_neg (by
      rintro (hc | hc)
      · exact hc ht
      · exact hc hf)]

/-- Witness for C9's amended theorem: a missing column in
`get_unique_names` and a length mismatch in `fill_na_df`, both on
concrete inputs. -/
theorem C9_validation_errors_witness :
    get_unique_names [] (strL "z") none
        = Except.error (strL "Column not found: " ++ strL "z")
      ∧ fill_na_df [] [] [strL "a"] (some [])
        = ([], some (strL
            "The length of target_columns and filler_columns must be the same.")) :=
  ⟨C9_validation_errors.1 [] (strL "z") none (by decide),
   C9_validation_errors.2.2.1 [] [] [strL "a"] (some []) (by decide)⟩

theorem mem_dedupGo (l : List Str) :
    ∀ (seen : List Str) (x : Str),
      x ∈ dedupGo l seen ↔ (x ∈ l ∧ x ∉ seen) := by
  induction l with
  | nil =>
      intro seen x
      simp [dedupGo]
  | cons y ys ih =>
      intro seen x
      rw [dedupGo]
      split
      · next hy =>
          rw [ih seen x]
          constructor
          · rintro ⟨hx, hnx⟩
            exact ⟨List.mem_cons_of_mem y hx, hnx⟩
          · rintro ⟨hx, hnx⟩
            rcases List.mem_cons.mp hx with rfl | hx'
            · exact absurd hy hnx
            · exact ⟨hx', hnx⟩
      · next hy =>
          rw [List.mem_cons, ih (y :: seen) x]
          constructor
          · rintro (rfl | ⟨hx, hnx⟩)
            · exact ⟨List.mem_cons_self x ys, hy⟩
            · exact ⟨List.mem_cons_of_mem y hx,
                fun hc => hnx (List.mem_cons_of_mem y hc)⟩
          · rintro ⟨hx, hnx⟩
            by_cases hxy : x = y
            · exact Or.inl hxy
            · have hx' : x ∈ ys := by
                rcases List.mem_cons.mp hx with h | h
                · exact absurd h hxy
                · exact h
              refine Or.inr ⟨hx', ?_⟩
              rw [List.mem_cons]
              rintro (h | h)
              · exact hxy h
              · exact hnx h

theorem nodup_dedupGo (l : List Str) :
    ∀ seen : List Str, (dedupGo l seen).Nodup := by
  induction l with
  | nil => intro seen; simp [dedupGo]
  | cons y ys ih =>
      intro seen
      rw [dedupGo]
      split
      · exact ih seen
      · rw [List.nodup_cons]
        refine ⟨?_, ih (y :: seen)⟩
        intro hc
        exact ((mem_dedupGo ys (y :: seen) y).mp hc).2
          (List.mem_cons_self y seen)

theorem mem_dedupStrs (l : List Str) (x : Str) :
    x ∈ dedupStrs l ↔ x ∈ l := by
  rw [dedupStrs, mem_dedupGo]
  simp

theorem nodup_dedupStrs (l : List Str) : (dedupStrs l).Nodup :=
  nodup_dedupGo l []

theorem lexLe_total (a : Str) : ∀ b : Str,
    lexLe a b = true ∨ lexLe b a = true := by
  induction a with
  | nil => intro b; exact Or.inl rfl
  | cons c a' ih =>
      intro b
      cases b with
      | nil => exact Or.inr rfl
      | cons d b' =>
          by_cases hcd : c = d
          · subst hcd
            rw [lexLe, if_pos rfl, lexLe, if_pos rfl]
            exact ih b'
          · rcases lt_trichotomy c d with h | h | h
            · exact Or.inl (by rw [lexLe, if_neg hcd]; exact decide_eq_true h)
            · exact absurd h hcd
            · refine Or.inr (by
                rw [lexLe, if_neg (fun hdc => hcd hdc.symm)]
                exact decide_eq_true h)

theorem lexLe_trans (a : Str) : ∀ b c : Str,
    lexLe a b = true → lexLe b c = true → lexLe a c = true := by
  induction a with
  | nil => intro b c _ _; rfl
  | cons x a' ih =>
      intro b c hab hbc
      cases b with
      | nil => exact absurd hab (by rw [lexLe]; exact Bool.false_ne_true)
      | cons y b' =>
          cases c with
          | nil => exact absurd hbc (by rw [lexLe]; exact Bool.false_ne_true)
          | cons z c' =>
              rw [lexLe] at hab hbc ⊢
              by_cases hxy : x = y
              · subst hxy
                rw [if_pos rfl] at hab
                by_cases hyz : x = z
                · subst hyz
                  rw [if_pos rfl] at hbc
                  rw [if_pos rfl]
                  exact ih b' c' hab hbc
                · rw [if_neg hyz] at hbc
                  rw [if_neg hyz]
                  exact hbc
              · rw [if_neg hxy] at hab
                have hxylt : x < y := of_decide_eq_true hab
                by_cases hyz : y = z
                · subst hyz
                  rw [if_neg hxy]
                  exact decide_eq_true hxylt
                · rw [if_neg hyz] at hbc
                  have hyzlt : y < z := of_decide_eq_true hbc
                  have hxz : x < z := lt_trans hxylt hyzlt
                  rw [if_neg (fun h => absurd hxz (by rw [h]; exact lt_irrefl z))]
                  exact decide_eq_true hxz

theorem gunBefore_total (a b : Str) :
    gunBefore a b = true ∨ gunBefore b a = true := by
  rw [gunBefore, gunBefore]
  rcases lt_trichotomy a.length b.length with h | h | h
  · refine Or.inr ?_
    rw [Bool.or_eq_true]
    exact Or.inl (decide_eq_true h)
  · rcases lexLe_total a b with hl | hl
    · refine Or.inl ?_
      rw [Bool.or_eq_true, Bool.and_eq_true]
      exact Or.inr ⟨decide_eq_true h, hl⟩
    · refine Or.inr ?_
      rw [Bool.or_eq_true, Bool.and_eq_true]
      exact Or.inr ⟨decide_eq_true h.symm, hl⟩
  · refine Or.inl ?_
    rw [Bool.or_eq_true]
    exact Or.inl (decide_eq_true h)

theorem gunBefore_trans (a b c : Str) (hab : gunBefore a b = true)
    (hbc : gunBefore b c = true) : gunBefore a c = true := by
  rw [gunBefore, Bool.or_eq_true, Bool.and_eq_true] at hab hbc ⊢
  rcases hab with h1 | ⟨h1, h1l⟩ <;> rcases hbc with h2 | ⟨h2, h2l⟩
  · exact Or.inl (decide_eq_true
      (lt_trans (of_decide_eq_true h2) (of_decide_eq_true h1)))
  · have := of_decide_eq_true h1
    have := of_decide_eq_true h2
    exact Or.inl (decide_eq_true (by omega))
  · have := of_decide_eq_true h1
    have := of_decide_eq_true h2
    exact Or.inl (decide_eq_true (by omega))
  · have e1 := of_decide_eq_true h1
    have e2 := of_decide_eq_true h2
    exact Or.inr ⟨decide_eq_true (by omega), lexLe_trans a b c h1l h2l⟩

theorem perm_insertStr (x : Str) (l : List Str) :
    (insertStr x l).Perm (x :: l) := by
  induction l with
  | nil => exact List.Perm.refl _
  | cons y ys ih =>
      rw [insertStr]
      split
      · exact List.Perm.refl _
      · exact (ih.cons y).trans (List.Perm.swap x y ys)

theorem perm_sortStrs (l : List Str) : (sortStrs l).Perm l := by
  induction l with
  | nil => exact List.Perm.refl _
  | cons x xs ih =>
      rw [sortStrs]
      exact (perm_insertStr x (sortStrs xs)).trans (ih.cons x)

theorem pairwise_insertStr (x : Str) (l : List Str)
    (h : l.Pairwise (fun a b => gunBefore a b = true)) :
    (insertStr x l).Pairwise (fun a b => gunBefore a b = true) := by
  induction l with
  | nil => simp [insertStr]
  | cons y ys ih =>
      rw [List.pairwise_cons] at h
      rw [insertStr]
      split
      · next hxy =>
          rw [List.pairwise_cons]
          refine ⟨?_, List.pairwise_cons.mpr h⟩
          intro z hz
          rcases List.mem_cons.mp hz with rfl | hz'
          · exact hxy
          · exact gunBefore_trans x y z hxy (h.1 z hz')
      · next hxy =>
          have hyx : gunBefore y x = true := by
            rcases gunBefore_total x y with h' | h'
            · exact absurd h' hxy
            · exact h'
          rw [List.pairwise_cons]
          refine ⟨?_, ih h.2⟩
          intro z hz
          rcases List.mem_cons.mp (((perm_insertStr x ys).mem_iff).mp hz)
            with rfl | hz'
          · exact hyx
          · exact h.1 z hz'

theorem pairwise_sortStrs (l : List Str) :
    (sortStrs l).Pairwise (fun a b => gunBefore a b = true) := by
  induction l with
  | nil => simp [sortStrs]
  | cons x xs ih =>
      rw [sortStrs]
      exact pairwise_insertStr x (sortStrs xs) ih

/-- The merged, lowercased name list that `get_unique_names` sorts. -/
def gunNames (df : Df) (t1 : Str) (t2 : Option Str) : List Str :=
  (dedupStrs (vals (getCol df t1))).map (fun s => s.map pyLower)
    ++ (match t2 with
        | some c =>
            if c ≠ [] then
              (dedupStrs (vals (getCol df c))).map (fun s => s.map pyLower)
            else []
        | none => [])

theorem gunCompute_eq (df : Df) (t1 : Str) (t2 : Option Str) :
    gunCompute df t1 t2 = sortStrs (dedupStrs (gunNames df t1 t2)) := rfl

theorem mem_gunNames (df : Df) (t1 : Str) (t2 : Option Str) (s : Str) :
    s ∈ gunNames df t1 t2 ↔
      ((∃ v ∈ vals (getCol df t1), s = v.map pyLower)
        ∨ ∃ c, t2 = some c ∧ c ≠ []
            ∧ ∃ v ∈ vals (getCol df c), s = v.map pyLower) := by
  rw [gunNames.eq_def, List.mem_append]
  constructor
  · rintro (hs | hs)
    · rw [List.mem_map] at hs
      obtain ⟨v, hv, hvs⟩ := hs
      exact Or.inl ⟨v, (mem_dedupStrs _ v).mp hv, hvs.symm⟩
    · cases t2 with
      | none => simp at hs
      | some c =>
          have hs' : s ∈ (if c ≠ [] then
              (dedupStrs (vals (getCol df c))).map (fun s => s.map pyLower)
            else []) := hs
          by_cases hc : c = []
          · rw [if_neg (not_not_intro hc)] at hs'
            simp at hs'
          · rw [if_pos hc] at hs'
            rw [List.mem_map] at hs'
            obtain ⟨v, hv, hvs⟩ := hs'
            exact Or.inr ⟨c, rfl, hc, v, (mem_dedupStrs _ v).mp hv, hvs.symm⟩
  · rintro (⟨v, hv, hvs⟩ | ⟨c, rfl, hc, v, hv, hvs⟩)
    · exact Or.inl (List.mem_map.mpr ⟨v, (mem_dedupStrs _ v).mpr hv, hvs.symm⟩)
    · refine Or.inr ?_
      show s ∈ (if c ≠ [] then
          (dedupStrs (vals (getCol df c))).map (fun s => s.map pyLower)
        else [])
      rw [if_pos hc]
      exact List.mem_map.mpr ⟨v, (mem_dedupStrs _ v).mpr hv, hvs.symm⟩

/-- C10: on existing column(s), `get_unique_names` succeeds and returns
a duplicate-free list holding exactly the lowercased non-missing values
of the requested column(s), ordered by strictly decreasing character
length with equal-length values in ascending lexicographic (code-point)
order — an order determined solely by the values, not by first
appearance.  (Per the code's truthiness test, the second column
contributes only when its name is nonempty.) -/
theorem C10_get_unique_names (df : Df) (t1 : Str) (t2 : Option Str)
    (h1 : t1 ∈ colNames df)
    (h2 : ∀ c, t2 = some c → c ∈ colNames df) :
    ∃ L, get_unique_names df t1 t2 = Except.ok L
      ∧ L.Nodup
      ∧ L.Pairwise (fun a b =>
          b.length < a.length
            ∨ (a.length = b.length ∧ lexLe a b = true))
      ∧ ∀ s, s ∈ L ↔
          ((∃ v ∈ vals (getCol df t1), s = v.map pyLower)
            ∨ ∃ c, t2 = some c ∧ c ≠ []
                ∧ ∃ v ∈ vals (getCol df c), s = v.map pyLower) := by
  have hok : get_unique_names df t1 t2 = Except.ok (gunCompute df t1 t2) := by
    cases t2 with
    | none => rw [get_unique_names.eq_def, if_neg (not_not_intro h1)]
    | some c =>
        rw [get_unique_names.eq_def, if_neg (not_not_intro h1)]
        show (if ¬ c ∈ colNames df then
            Except.error (strL "Column not found: " ++ c)
          else Except.ok (gunCompute df t1 (some c))) = _
        rw [if_neg (not_not_intro (h2 c rfl))]
  refine ⟨gunCompute df t1 t2, hok, ?_, ?_, ?_⟩
  · rw [gunCompute_eq]
    exact ((perm_sortStrs _).nodup_iff).mpr (nodup_dedupStrs _)
  · rw [gunCompute_eq]
    refine (pairwise_sortStrs _).imp ?_
    intro a b hab
    rw [gunBefore, Bool.or_eq_true, Bool.and_eq_true] at hab
    rcases hab with h | ⟨h, hl⟩
    · exact Or.inl (of_decide_eq_true h)
    · exact Or.inr ⟨of_decide_eq_true h, hl⟩
  · intro s
    rw [gunCompute_eq, (perm_sortStrs _).mem_iff, mem_dedupStrs]
    exact mem_gunNames df t1 t2 s

/-- Witness for C10 on a one-column dataframe with repeated, mixed-case
and missing values. -/
theorem C10_get_unique_names_witness :
    ∃ L, get_unique_names
        [(strL "c", [Cell.str (strL "Bob"), Cell.na, Cell.str (strL "bob"),
          Cell.str (strL "Zoe"), Cell.str (strL "Alicia")])]
        (strL "c") none = Except.ok L
      ∧ L.Nodup
      ∧ L.Pairwise (fun a b =>
          b.length < a.length
            ∨ (a.length = b.length ∧ lexLe a b = true))
      ∧ ∀ s, s ∈ L ↔
          ((∃ v ∈ vals (getCol
              [(strL "c", [Cell.str (strL "Bob"), Cell.na,
                Cell.str (strL "bob"), Cell.str (strL "Zoe"),
                Cell.str (strL "Alicia")])] (strL "c")),
            s = v.map pyLower)
            ∨ ∃ c, (none : Option Str) = some c ∧ c ≠ []
                ∧ ∃ v ∈ vals (getCol
                    [(strL "c", [Cell.str (strL "Bob"), Cell.na,
                      Cell.str (strL "bob"), Cell.str (strL "Zoe"),
                      Cell.str (strL "Alicia")])] c),
                  s = v.map pyLower) :=
  C10_get_unique_names
    [(strL "c", [Cell.str (strL "Bob"), Cell.na, Cell.str (strL "bob"),
      Cell.str (strL "Zoe"), Cell.str (strL "Alicia")])]
    (strL "c") none (by decide) (fun c h => nomatch h)
